import Mathlib

/-!
Shallow embedding of the WireCC serialization toolkit
(src/include/wirecc/wirecc.h): the big-endian integer codecs, the
cursor-based ByteBuffer, the Bitmap bit-flag set, the
CombinationGenerator and the RandomGenerator.

Bytes are modelled as natural numbers (in real runs always below 256),
unsigned machine integers as Nat with explicit reduction modulo 2 ^ w
where the C++ performs a narrowing conversion, and C int values as Int
under the two's-complement reinterpretation the source relies on.
Out-of-bounds reads are undefined behavior in the C++; the model reads 0
there and every theorem that depends on buffer contents carries the
corresponding in-bounds hypothesis.  Out-of-bounds stores (also undefined
behavior in the C++) are modelled by List.set, which leaves the list
unchanged; no theorem depends on that case.
-/

namespace WireCC

/-- Model of be64encode (wirecc.h lines 205-215): the eight big-endian
bytes of a 64-bit value, most significant byte first.  The source stores
them into buf[0] .. buf[7]; the model returns them as a list. -/
def be64encodeBytes (val : Nat) : List Nat :=
  [(val >>> 56) &&& 0xff, (val >>> 48) &&& 0xff, (val >>> 40) &&& 0xff,
   (val >>> 32) &&& 0xff, (val >>> 24) &&& 0xff, (val >>> 16) &&& 0xff,
   (val >>> 8) &&& 0xff, val &&& 0xff]

/-- Model of be64decode (wirecc.h lines 222-228): reads buf[0] .. buf[7]
big-endian.  Reads past the end of the list are undefined behavior in the
source; the model yields byte 0 there. -/
def be64decode (buf : List Nat) : Nat :=
  (buf.getD 7 0 <<< 0) ||| (buf.getD 6 0 <<< 8) ||| (buf.getD 5 0 <<< 16) |||
    (buf.getD 4 0 <<< 24) ||| (buf.getD 3 0 <<< 32) ||| (buf.getD 2 0 <<< 40) |||
    (buf.getD 1 0 <<< 48) ||| (buf.getD 0 0 <<< 56)

/-- Model of be32encode (wirecc.h lines 235-241). -/
def be32encodeBytes (val : Nat) : List Nat :=
  [(val >>> 24) &&& 0xff, (val >>> 16) &&& 0xff, (val >>> 8) &&& 0xff, val &&& 0xff]

/-- Model of be32decode (wirecc.h lines 248-251). -/
def be32decode (buf : List Nat) : Nat :=
  (buf.getD 3 0 <<< 0) ||| (buf.getD 2 0 <<< 8) ||| (buf.getD 1 0 <<< 16) |||
    (buf.getD 0 0 <<< 24)

/-- Model of the C++ conversion from int to unsigned int used by
ByteBuffer::writeInt (reduction modulo 2 ^ 32, defined behavior in C++). -/
def toUInt32n (i : Int) : Nat := (i % (2 ^ 32 : Int)).toNat

/-- Model of the C++ conversion from unsigned int to int used by
ByteBuffer::readInt: two's-complement reinterpretation of the low 32 bits
(the source warns that two's complement is assumed). -/
def toInt32s (n : Nat) : Int :=
  if n % 2 ^ 32 < 2 ^ 31 then ((n % 2 ^ 32 : Nat) : Int)
  else ((n % 2 ^ 32 : Nat) : Int) - 2 ^ 32

/-- Byte-store loop: stores the given bytes at consecutive indices,
mirroring the sequence of buf[i] = v assignments in the source.  An
out-of-range store (undefined behavior in C++) leaves the list unchanged. -/
def writeBytesAt : List Nat → Nat → List Nat → List Nat
  | l, _, [] => l
  | l, i, b :: bs => writeBytesAt (l.set i b) (i + 1) bs

/-- Model of WireCC::ByteBuffer (wirecc.h lines 281-512): a growable byte
vector and a single read/write cursor. -/
structure ByteBuffer where
  buf : List Nat
  pos : Nat
deriving DecidableEq, Repr

namespace ByteBuffer

/-- Model of ByteBuffer::clear / the default constructor: empty content,
cursor 0. -/
def bbClear : ByteBuffer := ⟨[], 0⟩

/-- Model of ByteBuffer::setPos. -/
def setPos (b : ByteBuffer) (newPos : Nat) : ByteBuffer := ⟨b.buf, newPos⟩

/-- Model of ByteBuffer::getPos. -/
def getPos (b : ByteBuffer) : Nat := b.pos

/-- Model of ByteBuffer::size: the return type is unsigned int, so the
vector length is reduced modulo 2 ^ 32. -/
def size (b : ByteBuffer) : Nat := b.buf.length % 2 ^ 32

/-- Model of ByteBuffer::load: clear, then copy the given bytes. -/
def load (data : List Nat) (sz : Nat) : ByteBuffer := ⟨data.take sz, 0⟩

/-- Model of ByteBuffer::writeU64: grow the vector by 8 zero bytes at the
tail, encode at the cursor, advance the cursor by 8. -/
def writeU64 (b : ByteBuffer) (val : Nat) : ByteBuffer :=
  ⟨writeBytesAt (b.buf ++ List.replicate 8 0) b.pos (be64encodeBytes val), b.pos + 8⟩

/-- Model of ByteBuffer::readU64: decode 8 bytes at the cursor, advance
the cursor by 8. -/
def readU64 (b : ByteBuffer) : Nat × ByteBuffer :=
  (be64decode (b.buf.drop b.pos), ⟨b.buf, b.pos + 8⟩)

/-- Model of ByteBuffer::writeUint. -/
def writeUint (b : ByteBuffer) (val : Nat) : ByteBuffer :=
  ⟨writeBytesAt (b.buf ++ List.replicate 4 0) b.pos (be32encodeBytes val), b.pos + 4⟩

/-- Model of ByteBuffer::readUint. -/
def readUint (b : ByteBuffer) : Nat × ByteBuffer :=
  (be32decode (b.buf.drop b.pos), ⟨b.buf, b.pos + 4⟩)

/-- Model of ByteBuffer::writeInt: the int is converted to unsigned and
written through writeUint. -/
def writeInt (b : ByteBuffer) (val : Int) : ByteBuffer :=
  b.writeUint (toUInt32n val)

/-- Model of ByteBuffer::readInt: reads through readUint and converts the
unsigned value back to int. -/
def readInt (b : ByteBuffer) : Int × ByteBuffer :=
  let r := b.readUint
  (toInt32s r.1, r.2)

/-- Model of ByteBuffer::writeBool: grow by one zero byte, store 1 or 0 at
the cursor, advance the cursor. -/
def writeBool (b : ByteBuffer) (val : Bool) : ByteBuffer :=
  ⟨writeBytesAt (b.buf ++ [0]) b.pos [if val then 1 else 0], b.pos + 1⟩

/-- Model of ByteBuffer::readBool: a byte is true iff it is nonzero. -/
def readBool (b : ByteBuffer) : Bool × ByteBuffer :=
  (decide (b.buf.getD b.pos 0 ≠ 0), ⟨b.buf, b.pos + 1⟩)

/-- Model of ByteBuffer::writeString.  Strings are byte lists; the length
is narrowed to uint32_t, each character is narrowed to uint8_t by the
store into the byte vector. -/
def writeString (b : ByteBuffer) (s : List Nat) : ByteBuffer :=
  let sz := s.length % 2 ^ 32
  let b1 := b.writeUint sz
  ⟨writeBytesAt (b1.buf ++ List.replicate sz 0) b1.pos
    ((s.take sz).map (fun c => c % 256)), b1.pos + sz⟩

/-- Byte-fetch loop of ByteBuffer::readString: push sz bytes starting at
the cursor onto the accumulating string, return the string and the final
cursor. -/
def readStrLoop : List Nat → Nat → Nat → List Nat → List Nat × Nat
  | _, p, 0, acc => (acc, p)
  | l, p, sz + 1, acc => readStrLoop l (p + 1) sz (acc ++ [l.getD p 0])

/-- Model of ByteBuffer::readString: read a 4-byte count, then push that
many bytes onto the given string (the output accumulates). -/
def readString (b : ByteBuffer) (val : List Nat) : ByteBuffer × List Nat :=
  let r := b.readUint
  let lp := readStrLoop r.2.buf r.2.pos r.1 val
  (⟨r.2.buf, lp.2⟩, lp.1)

/-- Element loop of ByteBuffer::readRset: read sz ints, inserting each into
the accumulating set, return the set and the final cursor. -/
def readRsetLoop : List Nat → Nat → Nat → Finset ℤ → Finset ℤ × Nat
  | _, p, 0, acc => (acc, p)
  | l, p, sz + 1, acc =>
      readRsetLoop l (p + 4) sz (insert (toInt32s (be32decode (l.drop p))) acc)

/-- Model of ByteBuffer::readRset: read a 4-byte count, then read that many
ints, inserting each into the given set (the output accumulates). -/
def readRset (b : ByteBuffer) (val : Finset ℤ) : ByteBuffer × Finset ℤ :=
  let r := b.readUint
  let lp := readRsetLoop r.2.buf r.2.pos r.1 val
  (⟨r.2.buf, lp.2⟩, lp.1)

/-- Model of ByteBuffer::writeBuffer: write the nested buffer's size
through writeUint, then append its first size bytes (its whole content
when the length fits in 32 bits) at the tail, and advance the cursor by
that size. -/
def writeBuffer (b nb : ByteBuffer) : ByteBuffer :=
  let b1 := b.writeUint nb.size
  ⟨b1.buf ++ nb.buf.take nb.size, b1.pos + nb.size⟩

/-- Model of ByteBuffer::readBuffer: read a 4-byte count, load that many
bytes starting at the cursor into a fresh output buffer (cursor 0), and
advance past them. -/
def readBuffer (b : ByteBuffer) : ByteBuffer × ByteBuffer :=
  let r := b.readUint
  (⟨r.2.buf, r.2.pos + r.1⟩, load (r.2.buf.drop r.2.pos) r.1)

end ByteBuffer

/-- Model of WireCC::Bitmap (wirecc.h lines 519-598): a 64-bit flag word
plus the active-bit mask fixed at construction. -/
structure Bitmap where
  flags : Nat
  mask : Nat
deriving DecidableEq, Repr

namespace Bitmap

/-- Model of the Bitmap constructor: flags cleared, mask = 2 ^ maxBits - 1.
For maxBits up to 63 the source's floating-point pow is exact; the model
uses the intended exact power throughout the documented range. -/
def mkBitmap (maxBits : Nat) : Bitmap := ⟨0, 2 ^ maxBits - 1⟩

/-- Model of Bitmap::isSet. -/
def isSet (b : Bitmap) (bit : Nat) : Bool := decide (0 < b.flags &&& (1 <<< bit))

/-- Model of Bitmap::isEmpty. -/
def isEmpty (b : Bitmap) : Bool := b.flags == 0

/-- Model of Bitmap::isFull. -/
def isFull (b : Bitmap) : Bool := b.flags == b.mask

/-- Model of Bitmap::set (the source asserts bit < 64 in debug builds;
the mask is not applied). -/
def set (b : Bitmap) (bit : Nat) : Bitmap := ⟨b.flags ||| (1 <<< bit), b.mask⟩

/-- Model of Bitmap::unset. -/
def unset (b : Bitmap) (bit : Nat) : Bitmap :=
  ⟨b.flags &&& (b.mask ^^^ (1 <<< bit)), b.mask⟩

/-- Model of Bitmap::clear. -/
def clear (b : Bitmap) : Bitmap := ⟨0, b.mask⟩

/-- Model of Bitmap::getFlags. -/
def getFlags (b : Bitmap) : Nat := b.flags

/-- One mutation of a Bitmap: a call to set, unset or clear. -/
inductive Mut where
  | mset (bit : Nat)
  | munset (bit : Nat)
  | mclear
deriving DecidableEq, Repr

/-- Applies one mutation. -/
def applyMut (b : Bitmap) : Mut → Bitmap
  | Mut.mset bit => b.set bit
  | Mut.munset bit => b.unset bit
  | Mut.mclear => b.clear

/-- Applies a sequence of mutations in order. -/
def runMuts (b : Bitmap) (ms : List Mut) : Bitmap := ms.foldl applyMut b

/-- The documented invariant: no flag bit outside the 64-bit complement of
the mask (flags AND NOT mask == 0, with NOT taken at width 64 as in the
source's uint64_t arithmetic). -/
def maskInv (b : Bitmap) : Prop := b.flags &&& ((2 ^ 64 - 1) ^^^ b.mask) = 0

instance (b : Bitmap) : Decidable (maskInv b) := by
  unfold maskInv; infer_instance

end Bitmap

/-- Model of std::next_permutation on a vector of bool (false < true), as
called by CombinationGenerator::get.  Returns the next lexicographically
greater arrangement when one exists, and none otherwise (the source call
then leaves the vector sorted ascending and returns false, modelled
separately in cgGet).  The recursion mirrors the standard algorithm: an
ascent inside the tail is advanced in the tail; otherwise the tail is
descending and an ascent at the head swaps in the last true of the tail
and sorts the rest ascending. -/
def nextPerm : List Bool → Option (List Bool)
  | [] => none
  | a :: rest =>
    match nextPerm rest with
    | some r => some (a :: r)
    | none =>
      if a = false ∧ rest.headD false = true then
        some (true :: (List.replicate (rest.length - rest.count true + 1) false ++
          List.replicate (rest.count true - 1) true))
      else none

/-- The selection loop of CombinationGenerator::get: the elements whose
mask position is true, in order. -/
def selectMask (bm : List Bool) (es : List α) : List α :=
  (bm.zip es).filterMap (fun p => if p.1 then some p.2 else none)

/-- An ascending-sorted bool list with the same true count, the state
std::next_permutation leaves behind when no greater permutation exists. -/
def ascOf (l : List Bool) : List Bool :=
  List.replicate (l.length - l.count true) false ++ List.replicate (l.count true) true

/-- Model of WireCC::CombinationGenerator (wirecc.h lines 106-153).  The
pool snapshot order stands in for iteration over the source container;
the field named from in the source is called pool here. -/
structure CombGen (α : Type) where
  bmap : List Bool
  elems : List α
  pool : List α
  greater : Bool
  ssize : Nat

/-- Model of the CombinationGenerator constructor. -/
def cgInit (pool : List α) (sampleSize : Nat) : CombGen α :=
  ⟨[], [], pool, false, sampleSize⟩

/-- Model of CombinationGenerator::hasNext. -/
def cgHasNext (g : CombGen α) : Bool :=
  g.greater || (g.bmap.isEmpty && decide (g.ssize ≤ g.pool.length))

/-- Model of CombinationGenerator::get: lazily fill the selection bitmap
(last ssize positions true) and the element snapshot, emit the selected
elements, then advance the bitmap to the next permutation, recording in
greater whether one existed. -/
def cgGet (g : CombGen α) : List α × CombGen α :=
  let bm := if g.bmap.isEmpty then
      List.replicate (g.pool.length - g.ssize) false ++ List.replicate g.ssize true
    else g.bmap
  let es := if g.bmap.isEmpty then g.elems ++ g.pool else g.elems
  let ret := selectMask bm es
  match nextPerm bm with
  | some b => (ret, ⟨b, es, g.pool, true, g.ssize⟩)
  | none => (ret, ⟨ascOf bm, es, g.pool, false, g.ssize⟩)

/-- Drives the generator the way the spec describes: repeatedly call get
while hasNext is true, collecting the produced combinations.  The fuel
argument bounds the number of calls; once hasNext is false no further
combination is produced regardless of remaining fuel. -/
def cgRun : CombGen α → Nat → List (List α)
  | _, 0 => []
  | g, fuel + 1 =>
    if cgHasNext g then
      let r := cgGet g
      r.1 :: cgRun r.2 fuel
    else []

/-- All length-n bool masks with exactly k true positions, in
lexicographic order with false before true: the enumeration order of
std::next_permutation.  Used only to state and prove properties of the
generator. -/
def allMasks : Nat → Nat → List (List Bool)
  | n, 0 => [List.replicate n false]
  | 0, _ + 1 => []
  | n + 1, k + 1 =>
    ((allMasks n (k + 1)).map (List.cons false)) ++ ((allMasks n k).map (List.cons true))

/-- Model of WireCC::RandomGenerator (wirecc.h lines 160-198): the working
list of remaining keys and the key list of the caller-owned pool (a
std::map iterates its distinct keys in order; the model takes that key
sequence as a list). -/
structure RandomGen (K : Type) where
  elems : List K
  pool : List K

/-- Model of the RandomGenerator constructor: empty working list. -/
def rgInit (pool : List K) : RandomGen K := ⟨[], pool⟩

/-- Model of RandomGenerator::reset: clears the working list. -/
def rgReset (g : RandomGen K) : RandomGen K := ⟨[], g.pool⟩

/-- Model of RandomGenerator::get.  The process-wide rand() call is an
injected value r; the drawn index is r mod the working-list length.  When
the working list is empty it is refilled from the pool first (the source
asserts a non-empty pool in debug builds; an empty pool is undefined
behavior there and yields the default element here). -/
def rgGet [Inhabited K] (g : RandomGen K) (r : Nat) : K × RandomGen K :=
  let es := if g.elems.isEmpty then g.pool else g.elems
  let idx := r % es.length
  (es.getD idx default, ⟨es.eraseIdx idx, g.pool⟩)

/-- Runs RandomGenerator::get once per supplied random value, collecting
the returned keys in order. -/
def rgRun [Inhabited K] : RandomGen K → List Nat → List K × RandomGen K
  | g, [] => ([], g)
  | g, r :: rs =>
    let d := rgGet g r
    let rest := rgRun d.2 rs
    (d.1 :: rest.1, rest.2)

/-- Integers decoded from n consecutive 4-byte groups starting at the
given offset, as ByteBuffer::readRset decodes them.  Used to state what
the rset read loop accumulates. -/
def intsAt : List Nat → Nat → Nat → List ℤ
  | _, _, 0 => []
  | l, p, n + 1 => toInt32s (be32decode (l.drop p)) :: intsAt l (p + 4) n

/-- A mutation is valid for a given maxBits when any set call uses a bit
inside the active range (the precondition the amended invariant claim
imposes). -/
def Bitmap.validMut (maxBits : Nat) : Bitmap.Mut → Bool
  | Bitmap.Mut.mset bit => decide (bit < maxBits)
  | _ => true

/-- The key sequence drawn by repeated RandomGenerator::get calls from a
given working list, one random value per draw: the element at index
r mod length is removed and emitted. -/
def drawAll [Inhabited K] : List K → List Nat → List K
  | _, [] => []
  | es, r :: rs => es.getD (r % es.length) default :: drawAll (es.eraseIdx (r % es.length)) rs

/-! Arithmetic facts about the big-endian codecs. -/

theorem and_255_eq_mod (x : Nat) : x &&& 255 = x % 256 := by
  have h : (255 : Nat) = 2 ^ 8 - 1 := by norm_num
  rw [h, Nat.and_pow_two_sub_one_eq_mod]

theorem lor_shift_eq_add {a : Nat} (b k : Nat) (h : a < 2 ^ k) :
    a ||| (b <<< k) = a + b * 2 ^ k := by
  rw [Nat.shiftLeft_eq, Nat.lor_comm, mul_comm, ← Nat.mul_add_lt_is_or h b]
  omega

theorem be64_decode_encode (v : Nat) (rest : List Nat) :
    be64decode (be64encodeBytes v ++ rest) = v % 2 ^ 64 := by
  show (v &&& 255) <<< 0 ||| ((v >>> 8) &&& 255) <<< 8 ||| ((v >>> 16) &&& 255) <<< 16 |||
      ((v >>> 24) &&& 255) <<< 24 ||| ((v >>> 32) &&& 255) <<< 32 |||
      ((v >>> 40) &&& 255) <<< 40 ||| ((v >>> 48) &&& 255) <<< 48 |||
      ((v >>> 56) &&& 255) <<< 56 = v % 2 ^ 64
  simp only [and_255_eq_mod, Nat.shiftRight_eq_div_pow, Nat.shiftLeft_zero]
  rw [lor_shift_eq_add _ 8 (by omega)]
  rw [lor_shift_eq_add _ 16 (by push_cast; omega)]
  rw [lor_shift_eq_add _ 24 (by push_cast; omega)]
  rw [lor_shift_eq_add _ 32 (by push_cast; omega)]
  rw [lor_shift_eq_add _ 40 (by push_cast; omega)]
  rw [lor_shift_eq_add _ 48 (by push_cast; omega)]
  rw [lor_shift_eq_add _ 56 (by push_cast; omega)]
  omega

theorem be32_decode_encode (v : Nat) (rest : List Nat) :
    be32decode (be32encodeBytes v ++ rest) = v % 2 ^ 32 := by
  show (v &&& 255) <<< 0 ||| ((v >>> 8) &&& 255) <<< 8 ||| ((v >>> 16) &&& 255) <<< 16 |||
      ((v >>> 24) &&& 255) <<< 24 = v % 2 ^ 32
  simp only [and_255_eq_mod, Nat.shiftRight_eq_div_pow, Nat.shiftLeft_zero]
  rw [lor_shift_eq_add _ 8 (by omega)]
  rw [lor_shift_eq_add _ 16 (by push_cast; omega)]
  rw [lor_shift_eq_add _ 24 (by push_cast; omega)]
  omega

theorem be64encodeBytes_length (v : Nat) : (be64encodeBytes v).length = 8 := rfl

theorem be32encodeBytes_length (v : Nat) : (be32encodeBytes v).length = 4 := rfl

/-! Facts about the byte-store loop. -/

theorem writeBytesAt_length (bs : List Nat) :
    ∀ (l : List Nat) (i : Nat), (writeBytesAt l i bs).length = l.length := by
  induction bs with
  | nil => intro l i; rfl
  | cons b bs ih => intro l i; simp [writeBytesAt, ih]

theorem writeBytesAt_eq (bs : List Nat) :
    ∀ (l : List Nat) (i : Nat), i + bs.length ≤ l.length →
      writeBytesAt l i bs = l.take i ++ (bs ++ l.drop (i + bs.length)) := by
  induction bs with
  | nil =>
    intro l i _
    simp [writeBytesAt]
  | cons b bs ih =>
    intro l i h
    simp only [List.length_cons] at h
    have hi : i < l.length := by omega
    show writeBytesAt (l.set i b) (i + 1) bs = _
    rw [ih (l.set i b) (i + 1) (by rw [List.length_set]; omega)]
    have hA : (l.take i).length = i := by rw [List.length_take]; omega
    have e1 : (l.set i b).take (i + 1) = l.take i ++ [b] := by
      rw [List.set_eq_take_cons_drop b hi, List.take_append_eq_append_take,
        List.take_of_length_le (by rw [hA]; omega), hA]
      have h1 : i + 1 - i = 1 := by omega
      rw [h1]
      simp
    have e2 : (l.set i b).drop (i + 1 + bs.length) = l.drop (i + 1 + bs.length) := by
      rw [List.drop_set, if_pos (by omega)]
    rw [e1, e2]
    have h2 : i + 1 + bs.length = i + (bs.length + 1) := by omega
    rw [h2]
    simp

theorem writeBytesAt_take (bs l : List Nat) (i : Nat) (h : i + bs.length ≤ l.length) :
    (writeBytesAt l i bs).take i = l.take i := by
  rw [writeBytesAt_eq bs l i h,
    List.take_left' (by rw [List.length_take]; omega)]

theorem writeBytesAt_seg (bs l : List Nat) (i : Nat) (h : i + bs.length ≤ l.length) :
    ((writeBytesAt l i bs).drop i).take bs.length = bs := by
  rw [writeBytesAt_eq bs l i h,
    List.drop_left' (by rw [List.length_take]; omega),
    List.take_left' rfl]

theorem writeBytesAt_drop (bs l : List Nat) (i : Nat) (h : i + bs.length ≤ l.length) :
    (writeBytesAt l i bs).drop (i + bs.length) = l.drop (i + bs.length) := by
  rw [writeBytesAt_eq bs l i h, ← List.append_assoc,
    List.drop_left' (by rw [List.length_append, List.length_take]; omega)]

theorem take_append_left {α : Type} (l l2 : List α) {n : Nat} (h : n ≤ l.length) :
    (l ++ l2).take n = l.take n := by
  rw [List.take_append_eq_append_take, Nat.sub_eq_zero_of_le h]
  simp

/-! Shape facts for the fixed-size ByteBuffer writes: the content grows by
the written size at the tail, the bytes before the cursor are unchanged,
the encoding lands at the cursor, and the cursor advances by the size. -/

theorem writeU64_shape (b : ByteBuffer) (v : Nat) (hp : b.pos ≤ b.buf.length) :
    (b.writeU64 v).buf.length = b.buf.length + 8 ∧
    (b.writeU64 v).buf.take b.pos = b.buf.take b.pos ∧
    ((b.writeU64 v).buf.drop b.pos).take 8 = be64encodeBytes v ∧
    (b.writeU64 v).pos = b.pos + 8 := by
  have hlen : b.pos + (be64encodeBytes v).length ≤ (b.buf ++ List.replicate 8 0).length := by
    simp [be64encodeBytes]; omega
  refine ⟨?_, ?_, ?_, rfl⟩
  · show (writeBytesAt (b.buf ++ List.replicate 8 0) b.pos (be64encodeBytes v)).length = _
    rw [writeBytesAt_length]; simp
  · show (writeBytesAt (b.buf ++ List.replicate 8 0) b.pos (be64encodeBytes v)).take b.pos = _
    rw [writeBytesAt_take _ _ _ hlen, take_append_left _ _ hp]
  · show ((writeBytesAt (b.buf ++ List.replicate 8 0) b.pos (be64encodeBytes v)).drop
        b.pos).take 8 = _
    exact writeBytesAt_seg _ _ _ hlen

theorem writeUint_shape (b : ByteBuffer) (v : Nat) (hp : b.pos ≤ b.buf.length) :
    (b.writeUint v).buf.length = b.buf.length + 4 ∧
    (b.writeUint v).buf.take b.pos = b.buf.take b.pos ∧
    ((b.writeUint v).buf.drop b.pos).take 4 = be32encodeBytes v ∧
    (b.writeUint v).pos = b.pos + 4 := by
  have hlen : b.pos + (be32encodeBytes v).length ≤ (b.buf ++ List.replicate 4 0).length := by
    simp [be32encodeBytes]; omega
  refine ⟨?_, ?_, ?_, rfl⟩
  · show (writeBytesAt (b.buf ++ List.replicate 4 0) b.pos (be32encodeBytes v)).length = _
    rw [writeBytesAt_length]; simp
  · show (writeBytesAt (b.buf ++ List.replicate 4 0) b.pos (be32encodeBytes v)).take b.pos = _
    rw [writeBytesAt_take _ _ _ hlen, take_append_left _ _ hp]
  · show ((writeBytesAt (b.buf ++ List.replicate 4 0) b.pos (be32encodeBytes v)).drop
        b.pos).take 4 = _
    exact writeBytesAt_seg _ _ _ hlen

theorem writeBool_shape (b : ByteBuffer) (v : Bool) (hp : b.pos ≤ b.buf.length) :
    (b.writeBool v).buf.length = b.buf.length + 1 ∧
    (b.writeBool v).buf.take b.pos = b.buf.take b.pos ∧
    ((b.writeBool v).buf.drop b.pos).take 1 = [if v then 1 else 0] ∧
    (b.writeBool v).pos = b.pos + 1 := by
  have hlen : b.pos + ([if v then (1 : Nat) else 0]).length ≤ (b.buf ++ [0]).length := by
    simp; omega
  refine ⟨?_, ?_, ?_, rfl⟩
  · show (writeBytesAt (b.buf ++ [0]) b.pos [if v then 1 else 0]).length = _
    rw [writeBytesAt_length]; simp
  · show (writeBytesAt (b.buf ++ [0]) b.pos [if v then 1 else 0]).take b.pos = _
    rw [writeBytesAt_take _ _ _ hlen, take_append_left _ _ hp]
  · show ((writeBytesAt (b.buf ++ [0]) b.pos [if v then 1 else 0]).drop b.pos).take 1 = _
    exact writeBytesAt_seg _ _ _ hlen

/-- Writing a 32-bit value with the cursor exactly at the tail appends the
encoding. -/
theorem writeUint_at_tail (b : ByteBuffer) (v : Nat) (h : b.pos = b.buf.length) :
    (b.writeUint v).buf = b.buf ++ be32encodeBytes v ∧ (b.writeUint v).pos = b.pos + 4 := by
  refine ⟨?_, rfl⟩
  show writeBytesAt (b.buf ++ List.replicate 4 0) b.pos (be32encodeBytes v) = _
  rw [writeBytesAt_eq _ _ _ (by simp [be32encodeBytes]; omega)]
  rw [h, List.take_left' rfl, List.drop_eq_nil_of_le (by simp [be32encodeBytes])]
  simp

/-- Byte-fetch loop characterization: in bounds, the loop appends the sz
bytes starting at the cursor and advances the cursor by sz. -/
theorem readStrLoop_eq (sz : Nat) :
    ∀ (l : List Nat) (p : Nat) (acc : List Nat), p + sz ≤ l.length →
      ByteBuffer.readStrLoop l p sz acc = (acc ++ (l.drop p).take sz, p + sz) := by
  induction sz with
  | zero => intro l p acc _; simp [ByteBuffer.readStrLoop]
  | succ sz ih =>
    intro l p acc h
    have hp : p < l.length := by omega
    show ByteBuffer.readStrLoop l (p + 1) sz (acc ++ [l.getD p 0]) = _
    rw [ih l (p + 1) _ (by omega)]
    have hd : l.getD p 0 = l[p] := by
      simp [List.getD_eq_getElem?_getD, List.getElem?_eq_getElem hp]
    rw [List.drop_eq_getElem_cons hp, List.take_succ_cons, hd, List.append_assoc,
      List.singleton_append]
    have hx : p + 1 + sz = p + (sz + 1) := by omega
    rw [hx]

/-! Round-trip helpers on a freshly cleared buffer. -/

theorem writeUint_clear_buf (v : Nat) :
    (ByteBuffer.bbClear.writeUint v).buf = be32encodeBytes v := by
  show writeBytesAt (([] : List Nat) ++ List.replicate 4 0) 0 (be32encodeBytes v) = _
  rw [writeBytesAt_eq _ _ _ (by simp [be32encodeBytes])]
  simp [be32encodeBytes]

theorem writeU64_clear_buf (v : Nat) :
    (ByteBuffer.bbClear.writeU64 v).buf = be64encodeBytes v := by
  show writeBytesAt (([] : List Nat) ++ List.replicate 8 0) 0 (be64encodeBytes v) = _
  rw [writeBytesAt_eq _ _ _ (by simp [be64encodeBytes])]
  simp [be64encodeBytes]

theorem readUint_writeUint_clear (v : Nat) (hv : v < 2 ^ 32) :
    (ByteBuffer.readUint ((ByteBuffer.bbClear.writeUint v).setPos 0)).1 = v := by
  show be32decode (((ByteBuffer.bbClear.writeUint v).buf).drop 0) = v
  rw [writeUint_clear_buf, List.drop_zero, ← List.append_nil (be32encodeBytes v),
    be32_decode_encode, Nat.mod_eq_of_lt hv]

theorem toUInt32n_lt (i : Int) : toUInt32n i < 2 ^ 32 := by
  unfold toUInt32n
  have h1 : 0 ≤ i % (2 ^ 32 : ℤ) := Int.emod_nonneg i (by norm_num)
  have h2 : i % (2 ^ 32 : ℤ) < 2 ^ 32 := Int.emod_lt_of_pos i (by norm_num)
  omega

theorem toInt32s_toUInt32n (i : Int) (h1 : -(2 ^ 31) ≤ i) (h2 : i < 2 ^ 31) :
    toInt32s (toUInt32n i) = i := by
  unfold toInt32s toUInt32n
  split <;> omega

/-- Shape of writeString at an in-bounds cursor: the content grows by
4 + length at the tail, the prefix before the cursor is preserved, the
length prefix and the narrowed characters land at the cursor, and the
cursor advances past them. -/
theorem writeString_shape (b : ByteBuffer) (s : List Nat) (hp : b.pos ≤ b.buf.length)
    (hlen : s.length < 2 ^ 32) :
    (b.writeString s).buf.length = b.buf.length + 4 + s.length ∧
    (b.writeString s).buf.take b.pos = b.buf.take b.pos ∧
    ((b.writeString s).buf.drop b.pos).take (4 + s.length) =
      be32encodeBytes s.length ++ s.map (fun c => c % 256) ∧
    (b.writeString s).pos = b.pos + 4 + s.length := by
  have hsz : s.length % 2 ^ 32 = s.length := Nat.mod_eq_of_lt hlen
  obtain ⟨u1, u2, u3, u4⟩ := writeUint_shape b (s.length % 2 ^ 32) hp
  set b1 := b.writeUint (s.length % 2 ^ 32) with hb1
  have hsmap : ((s.take (s.length % 2 ^ 32)).map (fun c => c % 256)) =
      s.map (fun c => c % 256) := by
    rw [hsz, List.take_of_length_le (le_refl _)]
  have hbuf2 : (b.writeString s).buf =
      writeBytesAt (b1.buf ++ List.replicate s.length 0) b1.pos
        (s.map (fun c => c % 256)) := by
    show writeBytesAt (b1.buf ++ List.replicate (s.length % 2 ^ 32) 0) b1.pos
        ((s.take (s.length % 2 ^ 32)).map (fun c => c % 256)) = _
    rw [hsz, List.take_of_length_le (le_refl _)]
  have hmlen : (s.map (fun c => c % 256)).length = s.length := by simp
  have hbound : b1.pos + (s.map (fun c => c % 256)).length ≤
      (b1.buf ++ List.replicate s.length 0).length := by
    rw [hmlen, List.length_append, List.length_replicate, u1, u4]
    omega
  refine ⟨?_, ?_, ?_, ?_⟩
  · rw [hbuf2, writeBytesAt_length, List.length_append, List.length_replicate, u1]
  · rw [hbuf2]
    have e1 : (writeBytesAt (b1.buf ++ List.replicate s.length 0) b1.pos
        (s.map (fun c => c % 256))).take b1.pos =
        (b1.buf ++ List.replicate s.length 0).take b1.pos :=
      writeBytesAt_take _ _ _ hbound
    have e2 : b.pos ≤ b1.pos := by omega
    calc (writeBytesAt (b1.buf ++ List.replicate s.length 0) b1.pos
          (s.map (fun c => c % 256))).take b.pos
        = ((writeBytesAt (b1.buf ++ List.replicate s.length 0) b1.pos
          (s.map (fun c => c % 256))).take b1.pos).take b.pos := by
          rw [List.take_take, min_eq_left e2]
      _ = ((b1.buf ++ List.replicate s.length 0).take b1.pos).take b.pos := by rw [e1]
      _ = (b1.buf ++ List.replicate s.length 0).take b.pos := by
          rw [List.take_take, min_eq_left e2]
      _ = b1.buf.take b.pos := take_append_left _ _ (by rw [u1]; omega)
      _ = b.buf.take b.pos := u2
  · rw [hbuf2, writeBytesAt_eq _ _ _ hbound]
    have hA : ((b1.buf ++ List.replicate s.length 0).take b1.pos).length = b1.pos := by
      rw [List.length_take, List.length_append, List.length_replicate, u1, u4]
      omega
    rw [List.drop_append_eq_append_drop, Nat.sub_eq_zero_of_le (by rw [hA, u4]; omega),
      List.drop_zero]
    have e3 : ((b1.buf ++ List.replicate s.length 0).take b1.pos).drop b.pos =
        be32encodeBytes s.length := by
      rw [List.drop_take, u4]
      have h5 : b.pos + 4 - b.pos = 4 := by omega
      rw [h5, List.drop_append_eq_append_drop, Nat.sub_eq_zero_of_le (by rw [u1]; omega),
        List.drop_zero, take_append_left _ _ (by rw [List.length_drop, u1]; omega),
        u3, hsz]
    have hdlen : (((b1.buf ++ List.replicate s.length 0).take b1.pos).drop b.pos).length
        = 4 := by
      rw [e3]
      rfl
    rw [List.take_append_eq_append_take, hdlen,
      List.take_of_length_le (by rw [hdlen]; omega), e3]
    have h4 : 4 + s.length - 4 = s.length := by omega
    rw [h4, List.take_append_eq_append_take, List.take_of_length_le (by rw [hmlen]),
      Nat.sub_eq_zero_of_le (by rw [hmlen]), List.take_zero, List.append_nil]
  · show b1.pos + s.length % 2 ^ 32 = b.pos + 4 + s.length
    rw [u4, hsz]

/-- C1 counterexample: with the cursor rewound by setPos to 0 on a buffer
of content 0x01, a write does not leave the existing content byte
unchanged: writeBool false overwrites it in place (the content becomes
0x00 0x00, not 0x01 0x00). -/
theorem write_after_setPos_overwrites :
    (ByteBuffer.bbClear.writeBool true).buf = [1] ∧
    ((ByteBuffer.bbClear.writeBool true).setPos 0).pos <
      ((ByteBuffer.bbClear.writeBool true).setPos 0).buf.length ∧
    (((ByteBuffer.bbClear.writeBool true).setPos 0).writeBool false).buf = [0, 0] := by
  decide

/-- C1 (amended): for a buffer whose cursor is below the content length,
every write grows the content by the written size at the tail but encodes
its bytes at the cursor, overwriting existing content there rather than
appending; the bytes before the cursor are unchanged and the cursor
advances by the written size.  writeBuffer places only its 4-byte count at
the cursor and appends the nested payload at the tail. -/
theorem write_at_cursor_shape (b : ByteBuffer) (hp : b.pos < b.buf.length) :
    (∀ v : Nat,
      (b.writeU64 v).buf.length = b.buf.length + 8 ∧
      (b.writeU64 v).buf.take b.pos = b.buf.take b.pos ∧
      ((b.writeU64 v).buf.drop b.pos).take 8 = be64encodeBytes v ∧
      (b.writeU64 v).pos = b.pos + 8) ∧
    (∀ v : Nat,
      (b.writeUint v).buf.length = b.buf.length + 4 ∧
      (b.writeUint v).buf.take b.pos = b.buf.take b.pos ∧
      ((b.writeUint v).buf.drop b.pos).take 4 = be32encodeBytes v ∧
      (b.writeUint v).pos = b.pos + 4) ∧
    (∀ i : Int,
      (b.writeInt i).buf.length = b.buf.length + 4 ∧
      (b.writeInt i).buf.take b.pos = b.buf.take b.pos ∧
      ((b.writeInt i).buf.drop b.pos).take 4 = be32encodeBytes (toUInt32n i) ∧
      (b.writeInt i).pos = b.pos + 4) ∧
    (∀ v : Bool,
      (b.writeBool v).buf.length = b.buf.length + 1 ∧
      (b.writeBool v).buf.take b.pos = b.buf.take b.pos ∧
      ((b.writeBool v).buf.drop b.pos).take 1 = [if v then 1 else 0] ∧
      (b.writeBool v).pos = b.pos + 1) ∧
    (∀ s : List Nat, s.length < 2 ^ 32 →
      (b.writeString s).buf.length = b.buf.length + 4 + s.length ∧
      (b.writeString s).buf.take b.pos = b.buf.take b.pos ∧
      ((b.writeString s).buf.drop b.pos).take (4 + s.length) =
        be32encodeBytes s.length ++ s.map (fun c => c % 256) ∧
      (b.writeString s).pos = b.pos + 4 + s.length) ∧
    (∀ nb : ByteBuffer, nb.buf.length < 2 ^ 32 →
      (b.writeBuffer nb).buf.length = b.buf.length + 4 + nb.buf.length ∧
      (b.writeBuffer nb).buf.take b.pos = b.buf.take b.pos ∧
      ((b.writeBuffer nb).buf.drop b.pos).take 4 = be32encodeBytes nb.buf.length ∧
      (b.writeBuffer nb).buf.drop (b.buf.length + 4) = nb.buf ∧
      (b.writeBuffer nb).pos = b.pos + 4 + nb.buf.length) := by
  have hple : b.pos ≤ b.buf.length := le_of_lt hp
  refine ⟨fun v => writeU64_shape b v hple,
    fun v => writeUint_shape b v hple,
    fun i => writeUint_shape b (toUInt32n i) hple,
    fun v => writeBool_shape b v hple,
    fun s hs => writeString_shape b s hple hs,
    fun nb hnb => ?_⟩
  have hsz : nb.size = nb.buf.length := Nat.mod_eq_of_lt hnb
  obtain ⟨u1, u2, u3, u4⟩ := writeUint_shape b nb.size hple
  have htake : nb.buf.take nb.size = nb.buf := by
    rw [hsz]
    exact List.take_of_length_le (le_refl _)
  have hbuf : (b.writeBuffer nb).buf = (b.writeUint nb.size).buf ++ nb.buf := by
    show (b.writeUint nb.size).buf ++ nb.buf.take nb.size = _
    rw [htake]
  refine ⟨?_, ?_, ?_, ?_, ?_⟩
  · rw [hbuf, List.length_append, u1]
  · rw [hbuf, take_append_left _ _ (by rw [u1]; omega), u2]
  · rw [hbuf, List.drop_append_eq_append_drop, Nat.sub_eq_zero_of_le (by rw [u1]; omega),
      List.drop_zero, take_append_left _ _ (by rw [List.length_drop, u1]; omega), u3, hsz]
  · rw [hbuf, List.drop_left' (by rw [u1])]
  · show (b.writeUint nb.size).pos + nb.size = b.pos + 4 + nb.buf.length
    rw [u4, hsz]

/-- Witness for C1 (amended): the writeBool conclusions at the concrete
buffer of content 0x01 0x02 0x03 with cursor 1. -/
theorem write_at_cursor_shape_witness :
    ((⟨[1, 2, 3], 1⟩ : ByteBuffer).writeBool true).buf.length = 3 + 1 ∧
    ((⟨[1, 2, 3], 1⟩ : ByteBuffer).writeBool true).buf.take 1 = [1] ∧
    (((⟨[1, 2, 3], 1⟩ : ByteBuffer).writeBool true).buf.drop 1).take 1 = [1] ∧
    ((⟨[1, 2, 3], 1⟩ : ByteBuffer).writeBool true).pos = 2 := by
  have h := (write_at_cursor_shape ⟨[1, 2, 3], 1⟩ (by decide)).2.2.2.1 true
  refine ⟨h.1, ?_, ?_, h.2.2.2⟩
  · rw [h.2.1]
    decide
  · rw [h.2.2.1]
    decide

/-- C3: with the outer cursor at the tail, writeBuffer appends a 4-byte
big-endian count equal to the nested buffer's entire content length
followed by a copy of that entire content (whatever the nested cursor
is), and readBuffer at the written location reproduces the full content
in a fresh buffer with cursor 0, advancing the outer cursor past the
consumed bytes. -/
theorem writeBuffer_readBuffer_roundtrip (b nb : ByteBuffer)
    (hb : b.pos = b.buf.length) (hnb : nb.buf.length < 2 ^ 32) :
    (b.writeBuffer nb).buf = b.buf ++ be32encodeBytes nb.buf.length ++ nb.buf ∧
    (b.writeBuffer nb).pos = b.pos + 4 + nb.buf.length ∧
    (ByteBuffer.readBuffer ((b.writeBuffer nb).setPos b.pos)).2.buf = nb.buf ∧
    (ByteBuffer.readBuffer ((b.writeBuffer nb).setPos b.pos)).2.pos = 0 ∧
    (ByteBuffer.readBuffer ((b.writeBuffer nb).setPos b.pos)).1.buf =
      (b.writeBuffer nb).buf ∧
    (ByteBuffer.readBuffer ((b.writeBuffer nb).setPos b.pos)).1.pos =
      b.pos + 4 + nb.buf.length := by
  have hsz : nb.size = nb.buf.length := Nat.mod_eq_of_lt hnb
  obtain ⟨t1, _⟩ := writeUint_at_tail b nb.size hb
  have htake : nb.buf.take nb.size = nb.buf := by
    rw [hsz]
    exact List.take_of_length_le (le_refl _)
  have hbuf : (b.writeBuffer nb).buf =
      b.buf ++ be32encodeBytes nb.buf.length ++ nb.buf := by
    show (b.writeUint nb.size).buf ++ nb.buf.take nb.size = _
    rw [t1, htake, hsz]
  have hpos : (b.writeBuffer nb).pos = b.pos + 4 + nb.buf.length := by
    show (b.writeUint nb.size).pos + nb.size = _
    show b.pos + 4 + nb.size = _
    rw [hsz]
  have hdropb : (b.writeBuffer nb).buf.drop b.pos =
      be32encodeBytes nb.buf.length ++ nb.buf := by
    rw [hbuf, List.append_assoc, List.drop_left' (by rw [hb])]
  have hdec : be32decode ((b.writeBuffer nb).buf.drop b.pos) = nb.buf.length := by
    rw [hdropb, be32_decode_encode, Nat.mod_eq_of_lt hnb]
  have hdrop4 : (b.writeBuffer nb).buf.drop (b.pos + 4) = nb.buf := by
    rw [hbuf, List.append_assoc, ← List.drop_drop, List.drop_left' (by rw [hb]),
      List.drop_left' (be32encodeBytes_length _)]
  refine ⟨hbuf, hpos, ?_, rfl, rfl, ?_⟩
  · show (((b.writeBuffer nb).buf.drop (b.pos + 4)).take
        (be32decode ((b.writeBuffer nb).buf.drop b.pos))) = nb.buf
    rw [hdec, hdrop4]
    exact List.take_of_length_le (le_refl _)
  · show b.pos + 4 + be32decode ((b.writeBuffer nb).buf.drop b.pos) = _
    rw [hdec]

/-- Witness for C3: the round-trip at a concrete outer buffer of one byte
with the cursor at the tail, and a nested buffer of content 0x05 0x06
whose own cursor sits at 7. -/
theorem writeBuffer_readBuffer_roundtrip_witness :
    ((⟨[9], 1⟩ : ByteBuffer).writeBuffer ⟨[5, 6], 7⟩).buf =
      [9] ++ be32encodeBytes 2 ++ [5, 6] ∧
    (ByteBuffer.readBuffer ((((⟨[9], 1⟩ : ByteBuffer).writeBuffer ⟨[5, 6], 7⟩)).setPos 1)).2 =
      ⟨[5, 6], 0⟩ := by
  have h := writeBuffer_readBuffer_roundtrip ⟨[9], 1⟩ ⟨[5, 6], 7⟩ (by decide) (by decide)
  refine ⟨h.1, ?_⟩
  have h3 := h.2.2.1
  have h4 := h.2.2.2.1
  cases e : (ByteBuffer.readBuffer ((((⟨[9], 1⟩ : ByteBuffer).writeBuffer
      ⟨[5, 6], 7⟩)).setPos 1)).2 with
  | mk bufv posv =>
    rw [e] at h3 h4
    simp only at h3 h4
    rw [h3, h4]

/-- C8: be64encode writes the most significant byte of its argument first;
in particular encoding 0x123456789ABCDEF0 yields the byte sequence
0x12 0x34 0x56 0x78 0x9A 0xBC 0xDE 0xF0. -/
theorem be64encode_msb_first :
    (∀ v : Nat, v < 2 ^ 64 → (be64encodeBytes v).getD 0 0 = v / 2 ^ 56) ∧
    be64encodeBytes 0x123456789ABCDEF0 =
      [0x12, 0x34, 0x56, 0x78, 0x9A, 0xBC, 0xDE, 0xF0] := by
  constructor
  · intro v hv
    show (v >>> 56) &&& 255 = v / 2 ^ 56
    rw [and_255_eq_mod, Nat.shiftRight_eq_div_pow, Nat.mod_eq_of_lt (by omega)]
  · decide

/-- Witness for C8: the general most-significant-byte-first statement
applied at the concrete input of the claim. -/
theorem be64encode_msb_first_witness :
    (0x123456789ABCDEF0 : Nat) < 2 ^ 64 ∧
    (be64encodeBytes 0x123456789ABCDEF0).getD 0 0 = 0x123456789ABCDEF0 / 2 ^ 56 :=
  ⟨by decide, be64encode_msb_first.1 0x123456789ABCDEF0 (by decide)⟩

/-- C2: on a freshly cleared buffer, write, setPos 0, read round-trips
every representable 64-bit unsigned, 32-bit unsigned, 32-bit signed
(two's complement) and boolean value, and every byte string read back
into an empty output string. -/
theorem bb_primitive_roundtrip :
    (∀ v : Nat, v < 2 ^ 64 →
      (ByteBuffer.readU64 ((ByteBuffer.bbClear.writeU64 v).setPos 0)).1 = v) ∧
    (∀ v : Nat, v < 2 ^ 32 →
      (ByteBuffer.readUint ((ByteBuffer.bbClear.writeUint v).setPos 0)).1 = v) ∧
    (∀ i : Int, -(2 ^ 31) ≤ i → i < 2 ^ 31 →
      (ByteBuffer.readInt ((ByteBuffer.bbClear.writeInt i).setPos 0)).1 = i) ∧
    (∀ v : Bool, (ByteBuffer.readBool ((ByteBuffer.bbClear.writeBool v).setPos 0)).1 = v) ∧
    (∀ s : List Nat, (∀ c ∈ s, c < 256) → s.length < 2 ^ 32 →
      (ByteBuffer.readString ((ByteBuffer.bbClear.writeString s).setPos 0) []).2 = s) := by
  refine ⟨?_, ?_, ?_, ?_, ?_⟩
  · intro v hv
    show be64decode (((ByteBuffer.bbClear.writeU64 v).buf).drop 0) = v
    rw [writeU64_clear_buf, List.drop_zero, ← List.append_nil (be64encodeBytes v),
      be64_decode_encode, Nat.mod_eq_of_lt hv]
  · intro v hv
    exact readUint_writeUint_clear v hv
  · intro i h1 h2
    show toInt32s (ByteBuffer.readUint
      ((ByteBuffer.bbClear.writeUint (toUInt32n i)).setPos 0)).1 = i
    rw [readUint_writeUint_clear _ (toUInt32n_lt i), toInt32s_toUInt32n i h1 h2]
  · intro v
    cases v <;> decide
  · intro s hs hlen
    have hsz : s.length % 2 ^ 32 = s.length := Nat.mod_eq_of_lt hlen
    have hmap : (s.take (s.length % 2 ^ 32)).map (fun c => c % 256) = s := by
      rw [hsz, List.take_of_length_le (le_refl _)]
      calc s.map (fun c => c % 256) = s.map id := by
            apply List.map_congr_left
            intro a ha
            simp [Nat.mod_eq_of_lt (hs a ha)]
        _ = s := List.map_id s
    have hbuf : (ByteBuffer.bbClear.writeString s).buf =
        be32encodeBytes (s.length % 2 ^ 32) ++ s := by
      show writeBytesAt ((ByteBuffer.bbClear.writeUint (s.length % 2 ^ 32)).buf ++
          List.replicate (s.length % 2 ^ 32) 0) (ByteBuffer.bbClear.writeUint
          (s.length % 2 ^ 32)).pos ((s.take (s.length % 2 ^ 32)).map (fun c => c % 256)) = _
      rw [writeUint_clear_buf, hmap]
      show writeBytesAt (be32encodeBytes (s.length % 2 ^ 32) ++
          List.replicate (s.length % 2 ^ 32) 0) 4 s = _
      rw [writeBytesAt_eq _ _ _ (by simp [be32encodeBytes]; omega)]
      rw [List.take_left' (be32encodeBytes_length _),
        List.drop_eq_nil_of_le (by simp [be32encodeBytes]; omega)]
      simp
    show (let r := (ByteBuffer.setPos (ByteBuffer.bbClear.writeString s) 0).readUint
      let lp := ByteBuffer.readStrLoop r.2.buf r.2.pos r.1 []
      (⟨r.2.buf, lp.2⟩, lp.1) : ByteBuffer × List Nat).2 = s
    have hdec : ((ByteBuffer.setPos (ByteBuffer.bbClear.writeString s) 0).readUint).1 =
        s.length := by
      show be32decode (((ByteBuffer.bbClear.writeString s).buf).drop 0) = s.length
      rw [hbuf, List.drop_zero, be32_decode_encode, hsz, Nat.mod_eq_of_lt hlen]
    simp only [hdec]
    show (ByteBuffer.readStrLoop ((ByteBuffer.bbClear.writeString s).buf) 4 s.length []).1 = s
    rw [readStrLoop_eq _ _ _ _ (by rw [hbuf]; simp [be32encodeBytes]; omega)]
    rw [hbuf, List.drop_left' (be32encodeBytes_length _),
      List.take_of_length_le (le_refl _)]
    simp

/-- Witness for C2: the round-trips applied at the concrete values
0x123456789ABCDEF0, 0x12345678, -12345, true and the two-byte string
0x48 0x69. -/
theorem bb_primitive_roundtrip_witness :
    (ByteBuffer.readU64 ((ByteBuffer.bbClear.writeU64 0x123456789ABCDEF0).setPos 0)).1 =
      0x123456789ABCDEF0 ∧
    (ByteBuffer.readUint ((ByteBuffer.bbClear.writeUint 0x12345678).setPos 0)).1 =
      0x12345678 ∧
    (ByteBuffer.readInt ((ByteBuffer.bbClear.writeInt (-12345)).setPos 0)).1 = -12345 ∧
    (ByteBuffer.readBool ((ByteBuffer.bbClear.writeBool true).setPos 0)).1 = true ∧
    (ByteBuffer.readString ((ByteBuffer.bbClear.writeString [0x48, 0x69]).setPos 0) []).2 =
      [0x48, 0x69] :=
  ⟨bb_primitive_roundtrip.1 _ (by decide),
   bb_primitive_roundtrip.2.1 _ (by decide),
   bb_primitive_roundtrip.2.2.1 (-12345) (by decide) (by decide),
   bb_primitive_roundtrip.2.2.2.1 true,
   bb_primitive_roundtrip.2.2.2.2 [0x48, 0x69] (by decide) (by decide)⟩

theorem readRsetLoop_eq (n : Nat) :
    ∀ (l : List Nat) (p : Nat) (acc : Finset ℤ),
      ByteBuffer.readRsetLoop l p n acc = (acc ∪ (intsAt l p n).toFinset, p + 4 * n) := by
  induction n with
  | zero =>
    intro l p acc
    simp [ByteBuffer.readRsetLoop, intsAt]
  | succ n ih =>
    intro l p acc
    show ByteBuffer.readRsetLoop l (p + 4) n
      (insert (toInt32s (be32decode (l.drop p))) acc) = _
    rw [ih]
    show (_, p + 4 + 4 * n) = (_, p + 4 * (n + 1))
    simp only [intsAt, List.toFinset_cons, Finset.insert_union, Finset.union_insert,
      Prod.mk.injEq]
    exact ⟨trivial, by omega⟩

/-- C9: readString and readRset accumulate into their output parameter
rather than replacing it: on a well-formed encoding at the cursor,
readString returns the prior characters followed by the decoded bytes,
and readRset returns the union of the prior set and the decoded
integers. -/
theorem read_into_output_accumulates (b : ByteBuffer) (prior : List Nat)
    (priorSet : Finset ℤ) :
    (b.pos + 4 + be32decode (b.buf.drop b.pos) ≤ b.buf.length →
      ByteBuffer.readString b prior =
        (⟨b.buf, b.pos + 4 + be32decode (b.buf.drop b.pos)⟩,
         prior ++ (b.buf.drop (b.pos + 4)).take (be32decode (b.buf.drop b.pos)))) ∧
    ByteBuffer.readRset b priorSet =
      (⟨b.buf, b.pos + 4 + 4 * be32decode (b.buf.drop b.pos)⟩,
       priorSet ∪ (intsAt b.buf (b.pos + 4) (be32decode (b.buf.drop b.pos))).toFinset) := by
  constructor
  · intro hwf
    show ((ByteBuffer.mk b.buf (ByteBuffer.readStrLoop b.buf (b.pos + 4)
        (be32decode (b.buf.drop b.pos)) prior).2),
      (ByteBuffer.readStrLoop b.buf (b.pos + 4)
        (be32decode (b.buf.drop b.pos)) prior).1) = _
    rw [readStrLoop_eq _ _ _ _ (by omega)]
  · show ((ByteBuffer.mk b.buf (ByteBuffer.readRsetLoop b.buf (b.pos + 4)
        (be32decode (b.buf.drop b.pos)) priorSet).2),
      (ByteBuffer.readRsetLoop b.buf (b.pos + 4)
        (be32decode (b.buf.drop b.pos)) priorSet).1) = _
    rw [readRsetLoop_eq]

/-- Witness for C9: readString on the encoding of the two bytes 0x41 0x42
with prior output 0x58 yields 0x58 0x41 0x42, and readRset on the
encoding of the single integer 5 with prior set containing 7 yields the
set containing 5 and 7. -/
theorem read_into_output_accumulates_witness :
    ByteBuffer.readString ⟨[0, 0, 0, 2, 65, 66], 0⟩ [88] =
      (⟨[0, 0, 0, 2, 65, 66], 6⟩, [88, 65, 66]) ∧
    ByteBuffer.readRset ⟨[0, 0, 0, 1, 0, 0, 0, 5], 0⟩ ({7} : Finset ℤ) =
      (⟨[0, 0, 0, 1, 0, 0, 0, 5], 8⟩, ({7, 5} : Finset ℤ)) := by
  constructor
  · rw [(read_into_output_accumulates ⟨[0, 0, 0, 2, 65, 66], 0⟩ [88] ∅).1 (by decide)]
    decide
  · rw [(read_into_output_accumulates ⟨[0, 0, 0, 1, 0, 0, 0, 5], 0⟩ [] {7}).2]
    decide

/-- C10: a Bitmap constructed with maxBits 0 has mask 0 and is both empty
and full right after construction; in general isEmpty and isFull hold
together exactly when both the mask and the flags are 0. -/
theorem bitmap_empty_and_full :
    (Bitmap.mkBitmap 0).mask = 0 ∧
    Bitmap.isEmpty (Bitmap.mkBitmap 0) = true ∧
    Bitmap.isFull (Bitmap.mkBitmap 0) = true ∧
    ∀ b : Bitmap, (Bitmap.isEmpty b = true ∧ Bitmap.isFull b = true) ↔
      (b.mask = 0 ∧ b.flags = 0) := by
  refine ⟨rfl, rfl, rfl, ?_⟩
  intro b
  simp only [Bitmap.isEmpty, Bitmap.isFull, beq_iff_eq]
  constructor
  · rintro ⟨h1, h2⟩
    omega
  · rintro ⟨h1, h2⟩
    omega

theorem maskInv_applyMut (maxBits : Nat) (b : Bitmap) (op : Bitmap.Mut)
    (hmb : maxBits ≤ 64) (hmask : b.mask = 2 ^ maxBits - 1)
    (hinv : Bitmap.maskInv b) (hop : Bitmap.validMut maxBits op = true) :
    Bitmap.maskInv (Bitmap.applyMut b op) ∧ (Bitmap.applyMut b op).mask = b.mask := by
  have hI : ∀ i, (b.flags.testBit i && (((2 ^ 64 - 1) ^^^ b.mask).testBit i)) = false := by
    intro i
    rw [← Nat.testBit_and, hinv, Nat.zero_testBit]
  cases op with
  | mset bit =>
    have hbit : bit < maxBits := by
      have h := hop
      simp only [Bitmap.validMut, decide_eq_true_eq] at h
      exact h
    refine ⟨?_, rfl⟩
    show (b.flags ||| (1 <<< bit)) &&& ((2 ^ 64 - 1) ^^^ b.mask) = 0
    apply Nat.eq_of_testBit_eq
    intro i
    rw [Nat.testBit_and, Nat.testBit_or, Nat.zero_testBit]
    have h1 := hI i
    rcases eq_or_ne i bit with rfl | hne
    · have hc : ((2 ^ 64 - 1) ^^^ b.mask).testBit i = false := by
        rw [Nat.testBit_xor, hmask, Nat.testBit_two_pow_sub_one, Nat.testBit_two_pow_sub_one]
        simp [show i < 64 from lt_of_lt_of_le hbit hmb, hbit]
      rw [hc]
      simp
    · have hz : (1 <<< bit).testBit i = false := by
        rw [Nat.one_shiftLeft, Nat.testBit_two_pow]
        simp [Ne.symm hne]
      rw [hz]
      simpa using h1
  | munset bit =>
    refine ⟨?_, rfl⟩
    show (b.flags &&& (b.mask ^^^ (1 <<< bit))) &&& ((2 ^ 64 - 1) ^^^ b.mask) = 0
    apply Nat.eq_of_testBit_eq
    intro i
    rw [Nat.testBit_and, Nat.testBit_and, Nat.zero_testBit]
    have h1 := hI i
    cases hf : b.flags.testBit i with
    | false => simp
    | true =>
      rw [hf] at h1
      simp only [Bool.true_and] at h1
      rw [h1]
      simp
  | mclear =>
    refine ⟨?_, rfl⟩
    show (0 : Nat) &&& ((2 ^ 64 - 1) ^^^ b.mask) = 0
    simp

theorem runMuts_maskInv (maxBits : Nat) (hmb : maxBits ≤ 64) :
    ∀ (ms : List Bitmap.Mut) (b : Bitmap), b.mask = 2 ^ maxBits - 1 → Bitmap.maskInv b →
      (∀ m ∈ ms, Bitmap.validMut maxBits m = true) →
      Bitmap.maskInv (Bitmap.runMuts b ms) := by
  intro ms
  induction ms with
  | nil =>
    intro b _ hinv _
    exact hinv
  | cons op ms ih =>
    intro b hmask hinv hv
    show Bitmap.maskInv (Bitmap.runMuts (Bitmap.applyMut b op) ms)
    obtain ⟨h1, h2⟩ := maskInv_applyMut maxBits b op hmb hmask hinv (hv op (by simp))
    exact ih (Bitmap.applyMut b op) (by rw [h2, hmask]) h1
      (fun m hm => hv m (List.mem_cons_of_mem _ hm))

/-- C7 counterexample: on a Bitmap constructed with maxBits 8, the
mutation set 10 (a bit below 64, as the claim allows) leaves a flag bit
outside the mask, so the invariant flags AND NOT mask == 0 fails after
that mutation. -/
theorem bitmap_set_outside_mask :
    (10 : Nat) < 64 ∧
    ¬ Bitmap.maskInv (Bitmap.runMuts (Bitmap.mkBitmap 8) [Bitmap.Mut.mset 10]) := by
  decide

/-- C7 (amended): for every Bitmap constructed with maxBits in 0..64 and
every sequence of mutations in which each set call uses a bit below
maxBits (unset and clear unrestricted), the invariant
flags AND NOT mask == 0 holds after each mutation, i.e. after every
prefix of the sequence. -/
theorem bitmap_invariant_after_each_mutation (maxBits : Nat) (ms : List Bitmap.Mut)
    (hmb : maxBits ≤ 64) (hv : ∀ m ∈ ms, Bitmap.validMut maxBits m = true) (k : Nat) :
    Bitmap.maskInv (Bitmap.runMuts (Bitmap.mkBitmap maxBits) (ms.take k)) := by
  apply runMuts_maskInv maxBits hmb (ms.take k) (Bitmap.mkBitmap maxBits) rfl
  · show (0 : Nat) &&& ((2 ^ 64 - 1) ^^^ ((2 : Nat) ^ maxBits - 1)) = 0
    simp
  · exact fun m hm => hv m (List.take_subset k ms hm)

/-- Witness for C7 (amended): the invariant after each of the four steps
set 3, unset 9, clear, set 7 on a Bitmap constructed with maxBits 8. -/
theorem bitmap_invariant_after_each_mutation_witness :
    Bitmap.maskInv (Bitmap.runMuts (Bitmap.mkBitmap 8)
      ([Bitmap.Mut.mset 3, Bitmap.Mut.munset 9, Bitmap.Mut.mclear,
        Bitmap.Mut.mset 7].take 4)) :=
  bitmap_invariant_after_each_mutation 8
    [Bitmap.Mut.mset 3, Bitmap.Mut.munset 9, Bitmap.Mut.mclear, Bitmap.Mut.mset 7]
    (by decide) (by decide) 4

/-! Facts about the random sampler. -/

theorem getD_cons_eraseIdx_perm {K : Type} [Inhabited K] (es : List K) (idx : Nat)
    (h : idx < es.length) :
    (es.getD idx default :: es.eraseIdx idx).Perm es := by
  have hd : es.getD idx default = es.get ⟨idx, h⟩ := by
    simp [List.getD_eq_getElem?_getD, List.getElem?_eq_getElem h]
  rw [hd, List.eraseIdx_eq_take_drop_succ]
  have hsplit : es = es.take idx ++ es.get ⟨idx, h⟩ :: es.drop (idx + 1) := by
    conv_lhs => rw [← List.take_append_drop idx es]
    rw [List.drop_eq_getElem_cons h]
    rfl
  conv_rhs => rw [hsplit]
  exact (List.perm_middle).symm

theorem drawAll_perm {K : Type} [Inhabited K] :
    ∀ (rands : List Nat) (es : List K), rands.length = es.length →
      (drawAll es rands).Perm es := by
  intro rands
  induction rands with
  | nil =>
    intro es h
    rw [List.eq_nil_of_length_eq_zero h.symm]
    rfl
  | cons r rs ih =>
    intro es h
    simp only [List.length_cons] at h
    have hpos : 0 < es.length := by omega
    have hidx : r % es.length < es.length := Nat.mod_lt r hpos
    show (es.getD (r % es.length) default ::
      drawAll (es.eraseIdx (r % es.length)) rs).Perm es
    have hlen : rs.length = (es.eraseIdx (r % es.length)).length := by
      rw [List.length_eraseIdx_of_lt hidx]
      omega
    exact ((ih _ hlen).cons _).trans (getD_cons_eraseIdx_perm es _ hidx)

theorem rgRun_nonempty_eq_drawAll {K : Type} [Inhabited K] :
    ∀ (rands : List Nat) (es pool : List K), es ≠ [] → rands.length ≤ es.length →
      (rgRun ⟨es, pool⟩ rands).1 = drawAll es rands := by
  intro rands
  induction rands with
  | nil => intro es pool _ _; rfl
  | cons r rs ih =>
    intro es pool hne hlen
    simp only [List.length_cons] at hlen
    have hE : es.isEmpty = false := by
      cases es with
      | nil => exact absurd rfl hne
      | cons a l => rfl
    show ((rgGet ⟨es, pool⟩ r).1 :: (rgRun (rgGet ⟨es, pool⟩ r).2 rs).1) = _
    have hget : rgGet (⟨es, pool⟩ : RandomGen K) r =
        (es.getD (r % es.length) default, ⟨es.eraseIdx (r % es.length), pool⟩) := by
      show (let es2 := if es.isEmpty then pool else es
        let idx := r % es2.length
        (es2.getD idx default, ⟨es2.eraseIdx idx, pool⟩) : K × RandomGen K) = _
      rw [hE]
      rfl
    rw [hget]
    show (es.getD (r % es.length) default ::
      (rgRun ⟨es.eraseIdx (r % es.length), pool⟩ rs).1) = _
    cases rs with
    | nil => rfl
    | cons r2 rs2 =>
      have hpos : 0 < es.length := List.length_pos.2 hne
      have hidx : r % es.length < es.length := Nat.mod_lt r hpos
      have hlen2 : (es.eraseIdx (r % es.length)).length = es.length - 1 :=
        List.length_eraseIdx_of_lt hidx
      rw [ih (es.eraseIdx (r % es.length)) pool
        (List.ne_nil_of_length_pos (by simp only [hlen2, List.length_cons] at *; omega))
        (by simp only [hlen2, List.length_cons] at *; omega)]
      rfl

theorem rgRun_from_empty_eq_drawAll {K : Type} [Inhabited K] (pool : List K)
    (rands : List Nat) (hne : pool ≠ []) (hlen : rands.length ≤ pool.length) :
    (rgRun ⟨[], pool⟩ rands).1 = drawAll pool rands := by
  cases rands with
  | nil => rfl
  | cons r rs =>
    simp only [List.length_cons] at hlen
    have hget : rgGet (⟨[], pool⟩ : RandomGen K) r =
        (pool.getD (r % pool.length) default, ⟨pool.eraseIdx (r % pool.length), pool⟩) := rfl
    show ((rgGet ⟨[], pool⟩ r).1 :: (rgRun (rgGet ⟨[], pool⟩ r).2 rs).1) = _
    rw [hget]
    show (pool.getD (r % pool.length) default ::
      (rgRun ⟨pool.eraseIdx (r % pool.length), pool⟩ rs).1) = _
    cases rs with
    | nil => rfl
    | cons r2 rs2 =>
      have hpos : 0 < pool.length := List.length_pos.2 hne
      have hidx : r % pool.length < pool.length := Nat.mod_lt r hpos
      have hlen2 : (pool.eraseIdx (r % pool.length)).length = pool.length - 1 :=
        List.length_eraseIdx_of_lt hidx
      rw [rgRun_nonempty_eq_drawAll (r2 :: rs2) (pool.eraseIdx (r % pool.length)) pool
        (List.ne_nil_of_length_pos (by simp only [hlen2, List.length_cons] at *; omega))
        (by simp only [hlen2, List.length_cons] at *; omega)]
      rfl

/-- C5: for a non-empty pool and any random source values, the first n
get calls after construction or after reset (both leave the working list
empty) return a permutation of the pool's keys; since map keys are
distinct, every key is returned exactly once. -/
theorem rg_full_pass_permutation {K : Type} [Inhabited K] [DecidableEq K]
    (g : RandomGen K) (rands : List Nat) (hE : g.elems = []) (hne : g.pool ≠ [])
    (hlen : rands.length = g.pool.length) :
    (rgRun g rands).1.Perm g.pool ∧
    (g.pool.Nodup → ∀ key ∈ g.pool, (rgRun g rands).1.count key = 1) := by
  obtain ⟨es, pool⟩ := g
  simp only at hE hne hlen
  subst hE
  have hperm : (rgRun (⟨[], pool⟩ : RandomGen K) rands).1.Perm pool := by
    rw [rgRun_from_empty_eq_drawAll pool rands hne (le_of_eq hlen)]
    exact drawAll_perm rands pool hlen
  refine ⟨hperm, fun hnd key hkey => ?_⟩
  rw [hperm.count_eq]
  exact List.count_eq_one_of_mem hnd hkey

/-- Witness for C5: a full pass over the three-key pool 10, 20, 30 with
random values 5, 1, 0 is a permutation of the pool and returns each key
once. -/
theorem rg_full_pass_permutation_witness :
    ((rgRun (⟨[], [10, 20, 30]⟩ : RandomGen Nat) [5, 1, 0]).1.Perm [10, 20, 30]) ∧
    (rgRun (⟨[], [10, 20, 30]⟩ : RandomGen Nat) [5, 1, 0]).1.count 10 = 1 := by
  have h := rg_full_pass_permutation (⟨[], [10, 20, 30]⟩ : RandomGen Nat) [5, 1, 0]
    rfl (by decide) (by decide)
  exact ⟨h.1, h.2 (by decide) 10 (by decide)⟩

/-- C6: evaluation of the model at the failing input of the claim.  With
the single-key pool 1 and two consecutive get calls (random values 0, 0)
and no reset in between, the generator returns key 1 twice: after the
pool is exhausted, the next get refills the working list from the pool by
itself, so sampling resumes without reset and a key repeats within one
pass. -/
theorem rg_key_returned_twice_without_reset :
    (rgRun (rgInit ([1] : List Nat)) [0, 0]).1 = [1, 1] := by decide

/-! Facts about the bool-vector next-permutation step. -/

theorem nextPerm_cons_some {a : Bool} {rest r : List Bool} (h : nextPerm rest = some r) :
    nextPerm (a :: rest) = some (a :: r) := by
  show (match nextPerm rest with
    | some r => some (a :: r)
    | none => _) = some (a :: r)
  rw [h]

theorem nextPerm_replicate_false : ∀ n : Nat, nextPerm (List.replicate n false) = none := by
  intro n
  induction n with
  | zero => rfl
  | succ n ih =>
    show nextPerm (false :: List.replicate n false) = none
    show (match nextPerm (List.replicate n false) with
      | some r => some (false :: r)
      | none => _) = none
    rw [ih]
    cases n <;> rfl

theorem nextPerm_desc_none (t f : Nat) :
    nextPerm (List.replicate t true ++ List.replicate f false) = none := by
  induction t with
  | zero =>
    show nextPerm (List.replicate f false) = none
    exact nextPerm_replicate_false f
  | succ t ih =>
    show nextPerm (true :: (List.replicate t true ++ List.replicate f false)) = none
    show (match nextPerm (List.replicate t true ++ List.replicate f false) with
      | some r => some (true :: r)
      | none => _) = none
    rw [ih]
    simp

theorem count_true_desc (t f : Nat) :
    (List.replicate t true ++ List.replicate f false).count true = t := by
  rw [List.count_append, List.count_replicate_self, List.count_replicate]
  simp

theorem nextPerm_junction (k f : Nat) (hk : 1 ≤ k) :
    nextPerm (false :: (List.replicate k true ++ List.replicate f false)) =
      some (true :: (List.replicate (f + 1) false ++ List.replicate (k - 1) true)) := by
  show (match nextPerm (List.replicate k true ++ List.replicate f false) with
    | some r => some (false :: r)
    | none =>
      if false = false ∧ (List.replicate k true ++ List.replicate f false).headD false
          = true then
        some (true :: (List.replicate ((List.replicate k true ++
            List.replicate f false).length -
            (List.replicate k true ++ List.replicate f false).count true + 1) false ++
          List.replicate ((List.replicate k true ++
            List.replicate f false).count true - 1) true))
      else none) = _
  rw [nextPerm_desc_none]
  have hhead : (List.replicate k true ++ List.replicate f false).headD false = true := by
    obtain ⟨k', rfl⟩ : ∃ k', k = k' + 1 := ⟨k - 1, by omega⟩
    rfl
  rw [if_pos ⟨rfl, hhead⟩, count_true_desc]
  have hlen : (List.replicate k true ++ List.replicate f false).length - k + 1 = f + 1 := by
    simp
  rw [hlen]

/-! Facts about the lexicographic mask enumeration. -/

theorem allMasks_length : ∀ n k : Nat, (allMasks n k).length = n.choose k := by
  intro n
  induction n with
  | zero =>
    intro k
    cases k with
    | zero => rfl
    | succ k => rfl
  | succ n ih =>
    intro k
    cases k with
    | zero => rfl
    | succ k =>
      show ((allMasks n (k + 1)).map (List.cons false) ++
        (allMasks n k).map (List.cons true)).length = _
      rw [List.length_append, List.length_map, List.length_map, ih, ih,
        Nat.choose_succ_succ']
      omega

theorem allMasks_mem : ∀ (n k : Nat) (m : List Bool), m ∈ allMasks n k →
    m.length = n ∧ m.count true = k := by
  intro n
  induction n with
  | zero =>
    intro k m hm
    cases k with
    | zero =>
      simp only [allMasks, List.mem_singleton] at hm
      subst hm
      simp
    | succ k => simp [allMasks] at hm
  | succ n ih =>
    intro k m hm
    cases k with
    | zero =>
      simp only [allMasks, List.mem_singleton] at hm
      subst hm
      simp [List.count_replicate]
    | succ k =>
      have hm2 : m ∈ (allMasks n (k + 1)).map (List.cons false) ++
          (allMasks n k).map (List.cons true) := hm
      rcases List.mem_append.1 hm2 with h | h
      · obtain ⟨m', hm', rfl⟩ := List.mem_map.1 h
        obtain ⟨h1, h2⟩ := ih (k + 1) m' hm'
        simp [h1, h2, List.count_cons]
      · obtain ⟨m', hm', rfl⟩ := List.mem_map.1 h
        obtain ⟨h1, h2⟩ := ih k m' hm'
        simp [h1, h2, List.count_cons]

theorem allMasks_nodup : ∀ n k : Nat, (allMasks n k).Nodup := by
  intro n
  induction n with
  | zero =>
    intro k
    cases k with
    | zero => simp [allMasks]
    | succ k => simp [allMasks]
  | succ n ih =>
    intro k
    cases k with
    | zero => simp [allMasks]
    | succ k =>
      show (((allMasks n (k + 1)).map (List.cons false)) ++
        ((allMasks n k).map (List.cons true))).Nodup
      apply List.Nodup.append
      · exact (ih (k + 1)).map List.cons_injective
      · exact (ih k).map List.cons_injective
      · intro x hx hy
        obtain ⟨a, _, rfl⟩ := List.mem_map.1 hx
        obtain ⟨b, _, hb⟩ := List.mem_map.1 hy
        simp at hb

theorem allMasks_ne_nil (n k : Nat) (h : k ≤ n) : allMasks n k ≠ [] := by
  apply List.ne_nil_of_length_pos
  rw [allMasks_length]
  exact Nat.choose_pos h

theorem allMasks_head : ∀ n k : Nat, k ≤ n → (allMasks n k).head? =
    some (List.replicate (n - k) false ++ List.replicate k true) := by
  intro n
  induction n with
  | zero =>
    intro k hk
    have hk0 : k = 0 := Nat.le_zero.1 hk
    subst hk0
    rfl
  | succ n ih =>
    intro k hk
    cases k with
    | zero =>
      show ([List.replicate (n + 1) false]).head? = _
      simp
    | succ k =>
      show ((allMasks n (k + 1)).map (List.cons false) ++
        (allMasks n k).map (List.cons true)).head? = _
      rcases Nat.lt_or_ge n (k + 1) with hlt | hge
      · have hkn : k = n := by omega
        subst hkn
        have hnil : allMasks k (k + 1) = [] := by
          apply List.eq_nil_of_length_eq_zero
          rw [allMasks_length]
          exact Nat.choose_eq_zero_of_lt hlt
        rw [hnil, List.map_nil, List.nil_append, List.head?_map,
          ih k (le_refl k)]
        show some (true :: (List.replicate (k - k) false ++ List.replicate k true)) = _
        rw [Nat.sub_self, Nat.sub_self, List.replicate_zero, List.nil_append,
          List.nil_append]
        rw [← List.replicate_succ]
      · rw [List.head?_append, List.head?_map, ih (k + 1) hge]
        show some (false :: (List.replicate (n - (k + 1)) false ++
          List.replicate (k + 1) true)) = _
        have harith : n + 1 - (k + 1) = (n - (k + 1)) + 1 := by omega
        rw [harith, List.replicate_succ]
        rfl

theorem allMasks_getLast : ∀ n k : Nat, k ≤ n → (allMasks n k).getLast? =
    some (List.replicate k true ++ List.replicate (n - k) false) := by
  intro n
  induction n with
  | zero =>
    intro k hk
    have hk0 : k = 0 := Nat.le_zero.1 hk
    subst hk0
    rfl
  | succ n ih =>
    intro k hk
    cases k with
    | zero =>
      show ([List.replicate (n + 1) false]).getLast? = _
      simp
    | succ k =>
      show ((allMasks n (k + 1)).map (List.cons false) ++
        (allMasks n k).map (List.cons true)).getLast? = _
      have hkn : k ≤ n := by omega
      have hBne : (allMasks n k).map (List.cons true) ≠ [] := by
        simp only [ne_eq, List.map_eq_nil_iff]
        exact allMasks_ne_nil n k hkn
      rw [List.getLast?_append, List.getLast?_map, ih k hkn]
      show (some (true :: (List.replicate k true ++
        List.replicate (n - k) false))).or _ = _
      rw [Option.or_some]
      have harith : n + 1 - (k + 1) = n - k := by omega
      rw [harith, ← List.cons_append, ← List.replicate_succ]

theorem allMasks_chain : ∀ n k : Nat,
    List.Chain' (fun a b => nextPerm a = some b) (allMasks n k) := by
  intro n
  induction n with
  | zero =>
    intro k
    cases k with
    | zero => exact List.chain'_singleton _
    | succ k => exact List.chain'_nil
  | succ n ih =>
    intro k
    cases k with
    | zero => exact List.chain'_singleton _
    | succ k =>
      show List.Chain' (fun a b => nextPerm a = some b)
        ((allMasks n (k + 1)).map (List.cons false) ++
          (allMasks n k).map (List.cons true))
      apply List.Chain'.append
      · exact (List.chain'_map _).2 ((ih (k + 1)).imp
          (fun a b h => nextPerm_cons_some h))
      · exact (List.chain'_map _).2 ((ih k).imp
          (fun a b h => nextPerm_cons_some h))
      · intro x hx y hy
        rcases Nat.lt_or_ge n (k + 1) with hlt | hge
        · have hnil : allMasks n (k + 1) = [] := by
            apply List.eq_nil_of_length_eq_zero
            rw [allMasks_length]
            exact Nat.choose_eq_zero_of_lt hlt
          rw [hnil] at hx
          simp at hx
        · rw [List.getLast?_map, allMasks_getLast n (k + 1) hge] at hx
          rw [List.head?_map, allMasks_head n k (by omega)] at hy
          simp only [Option.map_some', Option.mem_def, Option.some.injEq] at hx hy
          subst hx
          subst hy
          rw [nextPerm_junction (k + 1) (n - (k + 1)) (by omega)]
          have h1 : n - (k + 1) + 1 = n - k := by omega
          have h2 : k + 1 - 1 = k := by omega
          rw [h1, h2]

/-! Facts about the selection of elements by a mask. -/

theorem selectMask_nil {α : Type} (es : List α) : selectMask [] es = [] := rfl

theorem selectMask_cons_false {α : Type} (bm : List Bool) (e : α) (es : List α) :
    selectMask (false :: bm) (e :: es) = selectMask bm es := rfl

theorem selectMask_cons_true {α : Type} (bm : List Bool) (e : α) (es : List α) :
    selectMask (true :: bm) (e :: es) = e :: selectMask bm es := rfl

theorem selectMask_length {α : Type} :
    ∀ (bm : List Bool) (es : List α), bm.length = es.length →
      (selectMask bm es).length = bm.count true := by
  intro bm
  induction bm with
  | nil => intro es _; rfl
  | cons a bm ih =>
    intro es h
    cases es with
    | nil => simp at h
    | cons e es =>
      simp only [List.length_cons, Nat.add_right_cancel_iff] at h
      cases a with
      | false =>
        rw [selectMask_cons_false, ih es h, List.count_cons]
        simp
      | true =>
        rw [selectMask_cons_true, List.length_cons, ih es h, List.count_cons]
        simp

theorem selectMask_mem {α : Type} :
    ∀ (bm : List Bool) (es : List α) (x : α), x ∈ selectMask bm es → x ∈ es := by
  intro bm
  induction bm with
  | nil =>
    intro es x hx
    rw [selectMask_nil] at hx
    simp at hx
  | cons a bm ih =>
    intro es x hx
    cases es with
    | nil =>
      simp [selectMask] at hx
    | cons e es =>
      cases a with
      | false =>
        rw [selectMask_cons_false] at hx
        exact List.mem_cons_of_mem e (ih es x hx)
      | true =>
        rw [selectMask_cons_true] at hx
        rcases List.mem_cons.1 hx with rfl | hx
        · exact List.mem_cons_self x es
        · exact List.mem_cons_of_mem e (ih es x hx)

theorem selectMask_replicate_false {α : Type} :
    ∀ (n : Nat) (es : List α), selectMask (List.replicate n false) es = [] := by
  intro n
  induction n with
  | zero => intro es; rfl
  | succ n ih =>
    intro es
    cases es with
    | nil => rfl
    | cons e es =>
      rw [List.replicate_succ, selectMask_cons_false]
      exact ih es

theorem selectMask_inj {α : Type} :
    ∀ (es : List α), es.Nodup → ∀ (m1 m2 : List Bool),
      m1.length = es.length → m2.length = es.length → m1.count true = m2.count true →
      selectMask m1 es = selectMask m2 es → m1 = m2 := by
  intro es
  induction es with
  | nil =>
    intro _ m1 m2 h1 h2 _ _
    rw [List.length_nil, List.length_eq_zero] at h1 h2
    rw [h1, h2]
  | cons e es ih =>
    intro hnd m1 m2 h1 h2 hc hsel
    obtain ⟨hne, hnd2⟩ := List.nodup_cons.1 hnd
    obtain ⟨a, m1', rfl⟩ : ∃ a t, m1 = a :: t := by
      cases m1 with
      | nil => simp at h1
      | cons a t => exact ⟨a, t, rfl⟩
    obtain ⟨b, m2', rfl⟩ : ∃ b t, m2 = b :: t := by
      cases m2 with
      | nil => simp at h2
      | cons b t => exact ⟨b, t, rfl⟩
    simp only [List.length_cons, Nat.add_right_cancel_iff] at h1 h2
    cases a with
    | false =>
      cases b with
      | false =>
        rw [selectMask_cons_false, selectMask_cons_false] at hsel
        simp only [List.count_cons, cond_false] at hc
        have : m1' = m2' := by
          apply ih hnd2 m1' m2' h1 h2 _ hsel
          simpa using hc
        rw [this]
      | true =>
        rw [selectMask_cons_false, selectMask_cons_true] at hsel
        have : e ∈ selectMask m1' es := by
          rw [hsel]
          exact List.mem_cons_self e _
        exact absurd (selectMask_mem m1' es e this) hne
    | true =>
      cases b with
      | false =>
        rw [selectMask_cons_true, selectMask_cons_false] at hsel
        have : e ∈ selectMask m2' es := by
          rw [← hsel]
          exact List.mem_cons_self e _
        exact absurd (selectMask_mem m2' es e this) hne
      | true =>
        rw [selectMask_cons_true, selectMask_cons_true] at hsel
        have hsel2 : selectMask m1' es = selectMask m2' es :=
          List.tail_eq_of_cons_eq hsel
        have : m1' = m2' := by
          apply ih hnd2 m1' m2' h1 h2 _ hsel2
          simp only [List.count_cons] at hc
          omega
        rw [this]

theorem ascOf_length (l : List Bool) : (ascOf l).length = l.length := by
  have := List.count_le_length true l
  simp only [ascOf, List.length_append, List.length_replicate]
  omega

/-! Running the combination generator along the mask chain. -/

theorem cgRun_stop {α : Type} (g : CombGen α) (fuel : Nat) (h : cgHasNext g = false) :
    cgRun g fuel = [] := by
  cases fuel with
  | zero => rfl
  | succ f =>
    show (if cgHasNext g then _ else []) = []
    rw [h]
    simp

theorem cgHasNext_of_greater {α : Type} (bm : List Bool) (es pool : List α) (k : Nat) :
    cgHasNext (⟨bm, es, pool, true, k⟩ : CombGen α) = true := rfl

theorem cgGet_nonempty_some {α : Type} (m b : List Bool) (es pool : List α) (gr : Bool)
    (k : Nat) (hm : m ≠ []) (hnp : nextPerm m = some b) :
    cgGet (⟨m, es, pool, gr, k⟩ : CombGen α) =
      (selectMask m es, ⟨b, es, pool, true, k⟩) := by
  have hE : m.isEmpty = false := by
    cases m with
    | nil => exact absurd rfl hm
    | cons a l => rfl
  simp [cgGet, hE, hnp]

theorem cgGet_nonempty_none {α : Type} (m : List Bool) (es pool : List α) (gr : Bool)
    (k : Nat) (hm : m ≠ []) (hnp : nextPerm m = none) :
    cgGet (⟨m, es, pool, gr, k⟩ : CombGen α) =
      (selectMask m es, ⟨ascOf m, es, pool, false, k⟩) := by
  have hE : m.isEmpty = false := by
    cases m with
    | nil => exact absurd rfl hm
    | cons a l => rfl
  simp [cgGet, hE, hnp]

theorem cgGet_init_some {α : Type} (pool : List α) (k : Nat) (b : List Bool)
    (hnp : nextPerm (List.replicate (pool.length - k) false ++
      List.replicate k true) = some b) :
    cgGet (cgInit pool k) =
      (selectMask (List.replicate (pool.length - k) false ++ List.replicate k true) pool,
        (⟨b, pool, pool, true, k⟩ : CombGen α)) := by
  simp [cgGet, cgInit, hnp]

theorem cgGet_init_none {α : Type} (pool : List α) (k : Nat)
    (hnp : nextPerm (List.replicate (pool.length - k) false ++
      List.replicate k true) = none) :
    cgGet (cgInit pool k) =
      (selectMask (List.replicate (pool.length - k) false ++ List.replicate k true) pool,
        (⟨ascOf (List.replicate (pool.length - k) false ++ List.replicate k true),
          pool, pool, false, k⟩ : CombGen α)) := by
  simp [cgGet, cgInit, hnp]

theorem cgRun_chain {α : Type} (es pool : List α) (k : Nat) :
    ∀ (rest : List (List Bool)) (m : List Bool) (fuel : Nat),
      List.Chain' (fun a b => nextPerm a = some b) (m :: rest) →
      (∀ x ∈ m :: rest, x ≠ []) →
      (∀ x ∈ (m :: rest).getLast?, nextPerm x = none) →
      rest.length < fuel →
      cgRun (⟨m, es, pool, true, k⟩ : CombGen α) fuel =
        (m :: rest).map (fun x => selectMask x es) := by
  intro rest
  induction rest with
  | nil =>
    intro m fuel _ hne hlast hfuel
    obtain ⟨f, rfl⟩ : ∃ f, fuel = f + 1 := ⟨fuel - 1, by omega⟩
    have hmne : m ≠ [] := hne m (by simp)
    have hnp : nextPerm m = none := hlast m rfl
    show (if cgHasNext (⟨m, es, pool, true, k⟩ : CombGen α) then
      (cgGet (⟨m, es, pool, true, k⟩ : CombGen α)).1 ::
        cgRun (cgGet (⟨m, es, pool, true, k⟩ : CombGen α)).2 f else []) = _
    rw [cgHasNext_of_greater, if_pos rfl, cgGet_nonempty_none m es pool true k hmne hnp]
    show selectMask m es :: cgRun (⟨ascOf m, es, pool, false, k⟩ : CombGen α) f = _
    rw [cgRun_stop _ f ?hstop]
    · rfl
    case hstop =>
      show (false || ((ascOf m).isEmpty && _)) = false
      have hlen : (ascOf m).length ≠ 0 := by
        rw [ascOf_length]
        simp only [ne_eq, List.length_eq_zero]
        exact hmne
      have : (ascOf m).isEmpty = false := by
        cases hasc : ascOf m with
        | nil => exact absurd (by rw [hasc]; rfl) hlen
        | cons a l => rfl
      rw [this]
      rfl
  | cons m2 rest ih =>
    intro m fuel hchain hne hlast hfuel
    obtain ⟨f, rfl⟩ : ∃ f, fuel = f + 1 := ⟨fuel - 1, by omega⟩
    obtain ⟨hstep, hchain2⟩ := List.chain'_cons.1 hchain
    have hmne : m ≠ [] := hne m (by simp)
    show (if cgHasNext (⟨m, es, pool, true, k⟩ : CombGen α) then
      (cgGet (⟨m, es, pool, true, k⟩ : CombGen α)).1 ::
        cgRun (cgGet (⟨m, es, pool, true, k⟩ : CombGen α)).2 f else []) = _
    rw [cgHasNext_of_greater, if_pos rfl,
      cgGet_nonempty_some m m2 es pool true k hmne hstep]
    show selectMask m es :: cgRun (⟨m2, es, pool, true, k⟩ : CombGen α) f = _
    rw [ih m2 f hchain2 (fun x hx => hne x (List.mem_cons_of_mem m hx))
      (by rw [← List.getLast?_cons_cons]; exact hlast) (by simp at hfuel ⊢; omega)]
    rfl

theorem cgHasNext_asc_false {α : Type} (m : List Bool) (es pool : List α) (k : Nat)
    (hm : m ≠ []) :
    cgHasNext (⟨ascOf m, es, pool, false, k⟩ : CombGen α) = false := by
  have hlen : (ascOf m).length ≠ 0 := by
    rw [ascOf_length]
    simp only [ne_eq, List.length_eq_zero]
    exact hm
  have hE : (ascOf m).isEmpty = false := by
    cases hasc : ascOf m with
    | nil => exact absurd (by rw [hasc]; rfl) hlen
    | cons a l => rfl
  show (false || ((ascOf m).isEmpty && _)) = false
  rw [hE]
  rfl

/-- With the sample size within the pool size, driving the generator with
enough fuel produces exactly the selections of the lexicographic mask
enumeration, in order. -/
theorem cgRun_enumerates {α : Type} (pool : List α) (k fuel : Nat)
    (hk : k ≤ pool.length) (hn : pool ≠ []) (hfuel : pool.length.choose k ≤ fuel) :
    cgRun (cgInit pool k) fuel =
      (allMasks pool.length k).map (fun m => selectMask m pool) := by
  have hn1 : 1 ≤ pool.length := List.length_pos.2 hn
  have hchoose : 0 < pool.length.choose k := Nat.choose_pos hk
  obtain ⟨f, rfl⟩ : ∃ f, fuel = f + 1 := ⟨fuel - 1, by omega⟩
  have hHN : cgHasNext (cgInit pool k) = true := by
    show (false || (List.isEmpty ([] : List Bool) && decide (k ≤ pool.length))) = true
    simp [hk]
  have hhead := allMasks_head pool.length k hk
  have hlast := allMasks_getLast pool.length k hk
  have hlenM := allMasks_length pool.length k
  cases hM : allMasks pool.length k with
  | nil => exact absurd hM (allMasks_ne_nil pool.length k hk)
  | cons m0 tail =>
    rw [hM] at hhead hlast hlenM
    have hm0 : m0 = List.replicate (pool.length - k) false ++ List.replicate k true := by
      simp only [List.head?_cons, Option.some.injEq] at hhead
      exact hhead
    show (if cgHasNext (cgInit pool k) then
      (cgGet (cgInit pool k)).1 :: cgRun (cgGet (cgInit pool k)).2 f else []) = _
    rw [hHN, if_pos rfl]
    cases tail with
    | nil =>
      have hm0last : m0 = List.replicate k true ++
          List.replicate (pool.length - k) false := by
        simpa using hlast
      have hnone : nextPerm (List.replicate (pool.length - k) false ++
          List.replicate k true) = none := by
        rw [← hm0, hm0last]
        exact nextPerm_desc_none _ _
      rw [cgGet_init_none pool k hnone]
      show selectMask (List.replicate (pool.length - k) false ++
        List.replicate k true) pool :: cgRun (⟨ascOf _, pool, pool, false, k⟩ :
          CombGen α) f = _
      rw [cgRun_stop _ f (cgHasNext_asc_false _ pool pool k (by
        rw [← hm0]
        intro hnil
        have := congrArg List.length hm0
        rw [hnil] at this
        simp at this
        omega))]
      rw [hm0]
      rfl
    | cons m1 tail2 =>
      have hchain := allMasks_chain pool.length k
      rw [hM] at hchain
      obtain ⟨hstep, hchain2⟩ := List.chain'_cons.1 hchain
      have hsome : nextPerm (List.replicate (pool.length - k) false ++
          List.replicate k true) = some m1 := by
        rw [← hm0]
        exact hstep
      rw [cgGet_init_some pool k m1 hsome]
      show selectMask (List.replicate (pool.length - k) false ++
        List.replicate k true) pool ::
        cgRun (⟨m1, pool, pool, true, k⟩ : CombGen α) f = _
      have hmem : ∀ x ∈ m1 :: tail2, x ∈ allMasks pool.length k := by
        intro x hx
        rw [hM]
        exact List.mem_cons_of_mem m0 hx
      rw [cgRun_chain pool pool k tail2 m1 f hchain2
        (fun x hx => by
          obtain ⟨h1, _⟩ := allMasks_mem pool.length k x (hmem x hx)
          intro hnil
          rw [hnil] at h1
          simp at h1
          omega)
        (by
          intro x hx
          rw [← List.getLast?_cons_cons] at hx
          rw [hlast] at hx
          simp only [Option.mem_def, Option.some.injEq] at hx
          rw [← hx]
          exact nextPerm_desc_none _ _)
        (by
          simp only [List.length_cons] at hlenM
          omega)]
      rw [hm0]
      rfl

/-- C4 counterexample: for the empty pool with sample size 0 the claim
fails: after the single empty combination the generator still reports
hasNext, and driving it keeps producing empty combinations, so the total
is not C(0,0) = 1; moreover for a pool with repeated elements the
produced combinations are not pairwise distinct. -/
theorem cg_empty_pool_not_exhausted :
    (Nat.choose 0 0 = 1 ∧
      cgHasNext (cgGet (cgInit ([] : List Nat) 0)).2 = true ∧
      cgRun (cgInit ([] : List Nat) 0) 2 = [[], []]) ∧
    cgRun (cgInit [0, 0] 1) 2 = [[0], [0]] := by
  decide

/-- C4 (amended): for every pool of pairwise-distinct elements and sample
size k, provided the pool is non-empty or k is positive, driving the
generator while hasNext holds produces exactly C(n, k) combinations, all
pairwise distinct, each of length k with elements from the pool; for
k = 0 exactly one empty combination is produced, and for k above the pool
size hasNext is false from the start and nothing is produced.  (For the
empty pool with k = 0 the source generator never exhausts: its bitmap
stays empty, so hasNext stays true and every call yields the empty
combination.) -/
theorem cg_total_combinations {α : Type} (pool : List α) (k fuel : Nat)
    (hnd : pool.Nodup) (hne : pool ≠ [] ∨ 0 < k)
    (hfuel : pool.length.choose k ≤ fuel) :
    (cgRun (cgInit pool k) fuel).length = pool.length.choose k ∧
    List.Pairwise (fun c d => c ≠ d) (cgRun (cgInit pool k) fuel) ∧
    (∀ c ∈ cgRun (cgInit pool k) fuel, c.length = k ∧ ∀ x ∈ c, x ∈ pool) ∧
    (k = 0 → cgRun (cgInit pool k) fuel = [[]]) ∧
    (pool.length < k → cgHasNext (cgInit pool k) = false ∧
      cgRun (cgInit pool k) fuel = []) := by
  rcases Nat.lt_or_ge pool.length k with hlt | hge
  · have hHN : cgHasNext (cgInit pool k) = false := by
      show (false || (List.isEmpty ([] : List Bool) && decide (k ≤ pool.length))) = false
      simp
      omega
    have hrun : cgRun (cgInit pool k) fuel = [] := cgRun_stop _ _ hHN
    rw [hrun]
    refine ⟨by rw [Nat.choose_eq_zero_of_lt hlt]; rfl, by simp, by simp, ?_,
      fun _ => ⟨hHN, rfl⟩⟩
    intro hk0
    omega
  · have hn : pool ≠ [] := by
      rcases hne with h | h
      · exact h
      · exact List.ne_nil_of_length_pos (by omega)
    have hrun := cgRun_enumerates pool k fuel hge hn hfuel
    rw [hrun]
    refine ⟨?_, ?_, ?_, ?_, fun hlt => absurd hge (by omega)⟩
    · rw [List.length_map, allMasks_length]
    · apply List.Nodup.map_on ?_ (allMasks_nodup _ _)
      intro x hx y hy hsel
      obtain ⟨hx1, hx2⟩ := allMasks_mem _ _ x hx
      obtain ⟨hy1, hy2⟩ := allMasks_mem _ _ y hy
      exact selectMask_inj pool hnd x y hx1 hy1 (by rw [hx2, hy2]) hsel
    · intro c hc
      obtain ⟨m, hm, rfl⟩ := List.mem_map.1 hc
      obtain ⟨h1, h2⟩ := allMasks_mem _ _ m hm
      refine ⟨?_, fun x hx => selectMask_mem m pool x hx⟩
      rw [selectMask_length m pool h1, h2]
    · intro hk0
      subst hk0
      show ((allMasks pool.length 0).map (fun m => selectMask m pool)) = [[]]
      rw [show allMasks pool.length 0 = [List.replicate pool.length false] from by
        cases pool.length <;> rfl]
      rw [List.map_cons, List.map_nil, selectMask_replicate_false]

/-- Witness for C4 (amended): the four-element pool 10 20 30 40 with k = 2
and fuel 6 produces exactly C(4,2) = 6 pairwise-distinct combinations. -/
theorem cg_total_combinations_witness :
    (cgRun (cgInit [10, 20, 30, 40] 2) 6).length = 6 ∧
    List.Pairwise (fun c d => c ≠ d) (cgRun (cgInit [10, 20, 30, 40] 2) 6) := by
  have h := cg_total_combinations [10, 20, 30, 40] 2 6 (by decide)
    (Or.inl (by decide)) (by decide)
  refine ⟨?_, h.2.1⟩
  rw [h.1]
  decide

end WireCC
